import Mathlib

/-!
Verification of the subcollector concurrent scan engine against its
natural-language specification.

The Go sources are shallowly embedded:

* `map[string]V` becomes an association list `List (String × V)` with
  explicit lookup / insert / erase operations;
* `time.Duration` values and the `float64` delay arithmetic of the
  exponential-backoff component are modelled over `ℚ` (every concrete
  computation appearing in the claims is exact dyadic arithmetic well
  inside `float64` range, where Go's `float64` computes the same value);
* `time.Now()` becomes an explicit `now : ℕ` argument;
* goroutine interleavings of the worker pool become a small-step
  transition relation;
* channels feeding sequential per-candidate work become lists processed
  in submission order.
-/

namespace Subcollector

/-! ## Definitions -/

/-! ### Association-list maps (embedding of Go `map[string]V`) -/

/-- Lookup in an association list, first binding wins (a Go map has at
most one binding per key; the operations below preserve that). -/
def lookupA {β : Type} : List (String × β) → String → Option β
  | [], _ => none
  | (k', v) :: rest, k => if k' = k then some v else lookupA rest k

/-- Go map assignment `m[k] = v`: replace the existing binding or append
a new one. -/
def insertA {β : Type} : List (String × β) → String → β → List (String × β)
  | [], k, v => [(k, v)]
  | (k', v') :: rest, k, v =>
    if k' = k then (k, v) :: rest else (k', v') :: insertA rest k v

/-- Go map deletion `delete(m, k)`: remove the binding of `k`. -/
def eraseA {β : Type} : List (String × β) → String → List (String × β)
  | [], _ => []
  | (k', v') :: rest, k =>
    if k' = k then rest else (k', v') :: eraseA rest k

/-- The keys of an association list. -/
def keysA {β : Type} (m : List (String × β)) : List String := m.map Prod.fst

/-! ### ExponentialBackoff (`src/unnamed/part_003`)

Delays are rational numbers of nanoseconds (`time.Duration` is an
integer nanosecond count; the delay arithmetic happens in `float64` and
is modelled as exact rational arithmetic).  The per-target
`attemptsMap`/`targetCounts` Go maps of integers, read with a zero
default, are embedded as total functions `String → ℕ`.  The random
jitter sample `b.rnd.Float64()` is an explicit `rnd` argument. -/

structure ExponentialBackoff where
  baseDelay : ℚ
  maxDelay : ℚ
  factor : ℚ
  jitter : ℚ
  attemptsMap : String → ℕ
  targetCounts : String → ℕ

/-- `NewExponentialBackoff`: fresh state, empty maps (zero counters). -/
def NewExponentialBackoff (baseDelay maxDelay factor jitter : ℚ) : ExponentialBackoff :=
  ⟨baseDelay, maxDelay, factor, jitter, fun _ => 0, fun _ => 0⟩

/-- `NextDelay`: increment the target's attempt and request counters,
compute `base * factor^(attempts-1)`, add `rnd * jitter * delay`, cap at
`maxDelay`.  Returns the updated state and the delay. -/
def nextDelay (b : ExponentialBackoff) (target : String) (rnd : ℚ) :
    ExponentialBackoff × ℚ :=
  let attempts := b.attemptsMap target + 1
  let b' : ExponentialBackoff :=
    { b with
      attemptsMap := fun t => if t = target then attempts else b.attemptsMap t
      targetCounts := fun t => if t = target then b.targetCounts t + 1 else b.targetCounts t }
  let delay := b.baseDelay * b.factor ^ (attempts - 1)
  let delay := delay + rnd * b.jitter * delay
  let delay := if b.maxDelay < delay then b.maxDelay else delay
  (b', delay)

/-- `Reset`: zero the attempt counter of one target. -/
def Reset (b : ExponentialBackoff) (target : String) : ExponentialBackoff :=
  { b with attemptsMap := fun t => if t = target then 0 else b.attemptsMap t }

/-- `IsRateLimited`: attempts have reached the threshold. -/
def IsRateLimited (b : ExponentialBackoff) (target : String) (threshold : ℕ) : Bool :=
  threshold ≤ b.attemptsMap target

/-- `AdaptiveDelay`: on success, decrement the attempt counter (floor 0,
exactly the guarded decrement in the Go source) and return
`base * factor^attempts` computed on the reduced counter — with no
jitter and no `maxDelay` cap; on failure, delegate to `NextDelay`. -/
def AdaptiveDelay (b : ExponentialBackoff) (target : String) (rnd : ℚ)
    (success : Bool) : ExponentialBackoff × ℚ :=
  if success then
    let attempts := b.attemptsMap target - 1
    let b' : ExponentialBackoff :=
      { b with attemptsMap := fun t => if t = target then attempts else b.attemptsMap t }
    (b', b.baseDelay * b.factor ^ attempts)
  else
    nextDelay b target rnd

/-- State after `n` consecutive `NextDelay` calls for `target`, the
`i`-th call drawing jitter sample `rnds i`. -/
def nextDelays (target : String) (rnds : ℕ → ℚ) (b : ExponentialBackoff) :
    ℕ → ExponentialBackoff
  | 0 => b
  | n + 1 => (nextDelay (nextDelays target rnds b n) target (rnds n)).1

/-- The delay returned by call number `n + 1` in that sequence. -/
def nthDelay (target : String) (rnds : ℕ → ℚ) (b : ExponentialBackoff) (n : ℕ) : ℚ :=
  (nextDelay (nextDelays target rnds b n) target (rnds n)).2

/-- The backoff configuration used by the spec's backoff scenarios:
`base = 100ms, factor = 2, maxDelay = 1s, jitter = 0` (in nanoseconds). -/
def specBackoff : ExponentialBackoff :=
  NewExponentialBackoff 100000000 1000000000 2 0

/-- A backoff state whose counter for `"h"` sits at two failures;
used to instantiate the success-path theorems. -/
def recoveryState : ExponentialBackoff :=
  { NewExponentialBackoff 2 5 3 0 with
    attemptsMap := fun t => if t = "h" then 2 else 0 }

/-! ### LRU + TTL cache (`src/unnamed/part_010`, `LRUCache`)

`time.Time` values become natural-number instants; `Set` and `Get`
receive the value of `time.Now()` as an explicit `now` argument.
The entry payload `interface{}` becomes a type parameter. -/

structure CacheEntry (α : Type) where
  Data : α
  ExpiresAt : ℕ
deriving DecidableEq

structure LRUCache (α : Type) where
  cache : List (String × CacheEntry α)
  capacity : ℕ
  accessOrder : List String
  ttl : ℕ
deriving DecidableEq

/-- `NewLRUCache`: empty cache with the given capacity and TTL. -/
def NewLRUCache (α : Type) (capacity ttl : ℕ) : LRUCache α :=
  ⟨[], capacity, [], ttl⟩

/-- `removeFromAccessOrder`: delete the first occurrence of `key` (the
Go loop breaks after the first hit). -/
def removeFromAccessOrder : List String → String → List String
  | [], _ => []
  | k' :: rest, k => if k' = k then rest else k' :: removeFromAccessOrder rest k

/-- `evictLRU`: drop the head of the access order (the least recently
used key) from the map; a no-op on an empty access order. -/
def LRUCache.evictLRU {α : Type} (c : LRUCache α) : LRUCache α :=
  match c.accessOrder with
  | [] => c
  | lru :: rest => { c with cache := eraseA c.cache lru, accessOrder := rest }

/-- `Set`: on an existing key, remove it from the access order; else, if
the map is at capacity, evict the LRU entry; then write the entry with
expiry `now + ttl` and append the key as most recent. -/
def LRUCache.Set {α : Type} (c : LRUCache α) (key : String) (v : α) (now : ℕ) :
    LRUCache α :=
  let c1 :=
    if (lookupA c.cache key).isSome then
      { c with accessOrder := removeFromAccessOrder c.accessOrder key }
    else if c.capacity ≤ c.cache.length then c.evictLRU
    else c
  { c1 with
    cache := insertA c1.cache key ⟨v, now + c.ttl⟩
    accessOrder := c1.accessOrder ++ [key] }

/-- `Get`: a missing key is a miss; an entry with `now` strictly past
`ExpiresAt` (Go `time.Now().After(ExpiresAt)`) is deleted and reported
as a miss; otherwise the key is refreshed as most recent and the data
returned. -/
def LRUCache.Get {α : Type} (c : LRUCache α) (key : String) (now : ℕ) :
    Option α × LRUCache α :=
  match lookupA c.cache key with
  | none => (none, c)
  | some e =>
    if e.ExpiresAt < now then
      (none, { c with
        cache := eraseA c.cache key
        accessOrder := removeFromAccessOrder c.accessOrder key })
    else
      (some e.Data,
        { c with accessOrder := removeFromAccessOrder c.accessOrder key ++ [key] })

/-- Well-formedness tying the two representations together: the map has
no duplicate keys and the access order is a permutation of the key set.
It holds for `NewLRUCache` and is preserved by `Set` and `Get`. -/
def LRUCache.WF {α : Type} (c : LRUCache α) : Prop :=
  (keysA c.cache).Nodup ∧ c.accessOrder.Perm (keysA c.cache)

instance {α : Type} [DecidableEq α] (c : LRUCache α) : Decidable c.WF := by
  unfold LRUCache.WF
  infer_instance

/-! ### WorkerPool (`src/internal/utils/worker_pool.go`) as a transition system

Tasks are identified by natural numbers.  A state records the buffered
task queue (`tasksChan`), the multiset of tasks accepted by `AddTask`,
the tasks already executed, whether `Stop` has fired the cancellation
signal (and closed the intake), and how many workers have not yet
returned.  The steps are exactly the atomic actions of the Go code:

* `addTask` — `AddTask` sends to `tasksChan` (only before cancellation;
  after it, the `<-ctx.Done()` select arm makes the call return);
* `runTask` — a live worker receives the oldest buffered task and runs
  it to completion;
* `stop` — `Stop` calls `cancel()` and closes the intake;
* `workerExit` — a live worker returns; after `cancel()` the
  `<-wp.ctx.Done()` select arm is ready, so Go's select may choose it
  even while tasks are still buffered in `tasksChan` — this is the
  interleaving that loses accepted tasks.

`Stop` has returned (its `wg.Wait()` released) exactly in the states
with `workers = 0`. -/

structure PoolState where
  pending : List ℕ
  accepted : List ℕ
  executed : List ℕ
  cancelled : Bool
  workers : ℕ
deriving DecidableEq

/-- One atomic action of the pool and its clients. -/
inductive PoolStep : PoolState → PoolState → Prop
  | addTask (s : PoolState) (t : ℕ) (h : s.cancelled = false) :
      PoolStep s { s with pending := s.pending ++ [t], accepted := s.accepted ++ [t] }
  | runTask (s : PoolState) (t : ℕ) (rest : List ℕ) (hw : 0 < s.workers)
      (hp : s.pending = t :: rest) :
      PoolStep s { s with pending := rest, executed := s.executed ++ [t] }
  | stop (s : PoolState) :
      PoolStep s { s with cancelled := true }
  | workerExit (s : PoolState) (hc : s.cancelled = true) (hw : 0 < s.workers) :
      PoolStep s { s with workers := s.workers - 1 }

/-- Reachability under any interleaving. -/
def PoolReach : PoolState → PoolState → Prop := Relation.ReflTransGen PoolStep

/-- `NewWorkerPool(numWorkers, _)` followed by `Start()`. -/
def poolInit (numWorkers : ℕ) : PoolState := ⟨[], [], [], false, numWorkers⟩

/-! ### Wordlist ingestion

Eager path: `LoadWordlist` (`src/internal/utils/loader.go`) reads the
source line by line with `bufio.Scanner`, trims whitespace from each
line with `strings.TrimSpace`, and keeps the non-empty words.  The
streaming path is the chunked parser inside `StreamingActiveScan`
(`src/internal/scanner/memory_efficient.go`): it accumulates bytes,
ends the current word at each `'\n'` or `'\r'`, emits non-empty words,
and flushes the last word at EOF.  File contents are `List Char`
(ASCII whitespace stands in for Go's Unicode `TrimSpace` set; all
claims involve ASCII data). -/

/-- The ASCII whitespace characters trimmed by `strings.TrimSpace`. -/
def isSpaceChar (c : Char) : Bool :=
  c = ' ' || c = '\t' || c = '\n' || c = '\x0b' || c = '\x0c' || c = '\r'

/-- `strings.TrimSpace`: drop whitespace from both ends. -/
def trimChars (l : List Char) : List Char :=
  ((l.dropWhile isSpaceChar).reverse.dropWhile isSpaceChar).reverse

/-- Split on `'\n'`: the first component is the text before the first
newline, the second the remaining newline-delimited records. -/
def splitLines : List Char → List Char × List (List Char)
  | [] => ([], [])
  | c :: cs =>
    let p := splitLines cs
    if c = '\n' then ([], p.1 :: p.2) else (c :: p.1, p.2)

/-- The newline-delimited records of a source (what `bufio.Scanner`
iterates; the trailing `'\r'` of a CRLF line is removed by the
subsequent `TrimSpace`, which subsumes `bufio`'s `dropCR`). -/
def linesOf (s : List Char) : List (List Char) :=
  (splitLines s).1 :: (splitLines s).2

/-- `LoadWordlist`: trimmed, non-empty words, one per record. -/
def LoadWordlist (s : List Char) : List (List Char) :=
  ((linesOf s).map trimChars).filter (fun w => !w.isEmpty)

/-- The chunked word scanner of `StreamingActiveScan`, with the current
partial word as accumulator: `'\n'` and `'\r'` end a word, every other
character (including spaces and tabs) is appended to it, non-empty
words are emitted, and a final partial word is flushed at EOF. -/
def streamWordsAux : List Char → List Char → List (List Char)
  | [], w => if w.isEmpty then [] else [w]
  | c :: cs, w =>
    if c = '\n' ∨ c = '\r' then
      (if w.isEmpty then [] else [w]) ++ streamWordsAux cs []
    else
      streamWordsAux cs (w ++ [c])

/-- Words produced by the streaming ingestion path. -/
def streamWords (s : List Char) : List (List Char) := streamWordsAux s []

/-- A candidate hostname: `word + "." + target`. -/
def candidateOf (domain word : List Char) : List Char := word ++ '.' :: domain

/-- Candidates generated by the eager path (`LoadWordlist` feeding
`scanLevel`). -/
def eagerCandidates (domain s : List Char) : List (List Char) :=
  (LoadWordlist s).map (candidateOf domain)

/-- Candidates generated by the streaming path of
`StreamingActiveScan`. -/
def streamingCandidates (domain s : List Char) : List (List Char) :=
  (streamWords s).map (candidateOf domain)

/-! ### Per-candidate scan work (`Worker`, `src/unnamed/part_007`) and
the level loop of `activeScan`/`scanLevel`
(`src/internal/utils/output_formatter.go`)

The claims' scenarios run with the takeover client `nil` (takeover
disabled), so `CheckTakeover` is never invoked and the `Takeover` field
stays empty.  DNS lookups are an oracle: `lookupR sub resolver` models
`utils.LookupWithResolver` and `defaultLookup sub` models
`utils.DefaultLookup`, each returning the IP list on success.  Workers
drain one shared channel; the per-candidate effect on the shared cache
and result stream is processed here in submission order. -/

structure DNSResult where
  Found : Bool
  IPs : List String
deriving DecidableEq

structure SubdomainResult where
  Subdomain : String
  IPs : List String
  Takeover : String
deriving DecidableEq

structure WorkerEnv where
  lookupR : String → String → Option (List String)
  defaultLookup : String → Option (List String)
  resolvers : List String
  showIP : Bool

/-- Try each resolver in order until one succeeds. -/
def firstSuccess (lookupR : String → String → Option (List String)) (sub : String) :
    List String → Option (List String)
  | [] => none
  | r :: rest =>
    match lookupR sub r with
    | some a => some a
    | none => firstSuccess lookupR sub rest

/-- The `Worker` resolution chain: the configured resolvers in order,
or the system default resolver when none are configured. -/
def resolveSub (env : WorkerEnv) (sub : String) : Option (List String) :=
  if env.resolvers.isEmpty then env.defaultLookup sub
  else firstSuccess env.lookupR sub env.resolvers

/-- One `Worker` loop iteration on a candidate: consult the cache — a
positive hit re-emits the cached result, a negative hit emits nothing;
on a miss resolve, store the (positive or negative) outcome, and emit a
result only on success, with IPs only when `showIP` is set. -/
def workerStep (env : WorkerEnv) (cache : List (String × DNSResult)) (sub : String) :
    List (String × DNSResult) × Option SubdomainResult :=
  match lookupA cache sub with
  | some r =>
    if r.Found then (cache, some ⟨sub, r.IPs, ""⟩) else (cache, none)
  | none =>
    match resolveSub env sub with
    | some addrs =>
      (insertA cache sub ⟨true, addrs⟩,
        some ⟨sub, if env.showIP then addrs else [], ""⟩)
    | none => (insertA cache sub ⟨false, []⟩, none)

/-- `Worker`: process the queued candidates, threading the shared cache
and collecting the emitted results. -/
def Worker (env : WorkerEnv) :
    List (String × DNSResult) → List String →
      List SubdomainResult × List (String × DNSResult)
  | cache, [] => ([], cache)
  | cache, sub :: rest =>
    let p := workerStep env cache sub
    let q := Worker env p.1 rest
    (p.2.toList ++ q.1, q.2)

/-- The candidates fed to the workers for one level: for each target in
`toScan`, each wordlist word yields `word + "." + target`. -/
def levelCands (toScan wordlist : List String) : List String :=
  (toScan.map (fun t => wordlist.map (fun w => w ++ "." ++ t))).flatten

/-- The level loop of `activeScan`: run while the frontier is non-empty
and the depth budget (`depth = -1` unlimited, else `level ≤ depth`)
remains; recursion feeds the discovered subdomains of a level to the
next one while `level < depth` (or always, when `depth = -1`).  Returns
the list of candidate batches dispatched per level; `fuel` bounds the
recursion for the embedding and is irrelevant whenever it exceeds the
number of executed levels. -/
def scanLevels (env : WorkerEnv) (wordlist : List String) (recursive : Bool)
    (depth : Int) :
    ℕ → List String → Int → List (String × DNSResult) → List (List String)
  | 0, _, _, _ => []
  | fuel + 1, toScan, level, cache =>
    if toScan.isEmpty ∨ ¬(depth = -1 ∨ level ≤ depth) then []
    else
      let cands := levelCands toScan wordlist
      let p := Worker env cache cands
      let next :=
        if recursive ∧ (depth = -1 ∨ level < depth) then
          p.1.map (fun r => r.Subdomain)
        else []
      cands :: scanLevels env wordlist recursive depth fuel next (level + 1) p.2

/-- The end-to-end scenario environment of the spec: no configured
resolvers, and a default resolver that succeeds only for
`www.example.com`. -/
def c8env : WorkerEnv :=
  ⟨fun _ _ => none,
    fun sub => if sub = "www.example.com" then some ["93.184.216.34"] else none,
    [], false⟩

/-! ### `StreamingActiveScan` setup and ingestion
(`src/internal/scanner/memory_efficient.go`)

What the function observably does around wordlist loading:
`workerPool.Start()` runs before the producer goroutine attempts to
open the wordlist source; when loading fails the goroutine prints the
error and returns, producing no candidates; the function itself always
ends in `return nil`, so no error ever reaches the caller. -/

structure StreamScanOutcome where
  returnedError : Option String
  workersStarted : Bool
  candidates : List (List Char)
deriving DecidableEq

/-- `StreamingActiveScan`, restricted to its setup/ingestion behaviour:
the wordlist source is either file/URL contents or the open/fetch
error. -/
def StreamingActiveScan (domain : List Char)
    (wordlistSource : Except String (List Char)) : StreamScanOutcome :=
  match wordlistSource with
  | Except.error _ => ⟨none, true, []⟩
  | Except.ok s => ⟨none, true, streamingCandidates domain s⟩

/-! ## Theorems -/

/-! ### Association-list lemmas -/

@[simp] theorem keysA_nil {β : Type} : keysA ([] : List (String × β)) = [] := rfl

@[simp] theorem keysA_cons {β : Type} (p : String × β) (rest : List (String × β)) :
    keysA (p :: rest) = p.1 :: keysA rest := rfl

@[simp] theorem keysA_append {β : Type} (m₁ m₂ : List (String × β)) :
    keysA (m₁ ++ m₂) = keysA m₁ ++ keysA m₂ := by
  simp [keysA]

theorem lookupA_eq_none_iff {β : Type} (m : List (String × β)) (k : String) :
    lookupA m k = none ↔ k ∉ keysA m := by
  induction m with
  | nil => simp [lookupA]
  | cons p rest ih =>
    obtain ⟨k', v⟩ := p
    by_cases h : k' = k
    · subst h; simp [lookupA]
    · have h2 : ¬k = k' := fun hh => h hh.symm
      simp [lookupA, h, ih, h2]

theorem lookupA_isSome_iff {β : Type} (m : List (String × β)) (k : String) :
    (lookupA m k).isSome = true ↔ k ∈ keysA m := by
  rw [Option.isSome_iff_ne_none, not_iff_comm, ← lookupA_eq_none_iff]

theorem insertA_of_not_mem {β : Type} (m : List (String × β)) (k : String) (v : β)
    (h : k ∉ keysA m) : insertA m k v = m ++ [(k, v)] := by
  induction m with
  | nil => simp [insertA]
  | cons p rest ih =>
    obtain ⟨k', v'⟩ := p
    simp at h
    push_neg at h
    have h2 : ¬k' = k := fun hh => h.1 hh.symm
    simp [insertA, h2, ih h.2]

theorem keysA_eraseA_mem {β : Type} (m : List (String × β)) (k k' : String)
    (hnd : (keysA m).Nodup) :
    (k' ∈ keysA (eraseA m k)) ↔ (k' ∈ keysA m ∧ k' ≠ k) := by
  induction m with
  | nil => simp [eraseA]
  | cons p rest ih =>
    obtain ⟨k₀, v₀⟩ := p
    simp at hnd
    by_cases h : k₀ = k
    · subst h
      simp [eraseA]
      constructor
      · intro hm
        refine ⟨Or.inr hm, ?_⟩
        rintro rfl; exact hnd.1 hm
      · rintro ⟨h1 | h1, h2⟩
        · exact absurd h1 h2
        · exact h1
    · simp [eraseA, h, ih hnd.2]
      constructor
      · rintro (rfl | ⟨h1, h2⟩)
        · exact ⟨Or.inl rfl, h⟩
        · exact ⟨Or.inr h1, h2⟩
      · rintro ⟨rfl | h1, h2⟩
        · exact Or.inl rfl
        · exact Or.inr ⟨h1, h2⟩

theorem keysA_eraseA_length {β : Type} (m : List (String × β)) (k : String)
    (h : k ∈ keysA m) : (eraseA m k).length + 1 = m.length := by
  induction m with
  | nil => simp at h
  | cons p rest ih =>
    obtain ⟨k₀, v₀⟩ := p
    by_cases hk : k₀ = k
    · simp [eraseA, hk]
    · have h' : k ∈ keysA rest := by
        simp at h
        rcases h with h | h
        · exact absurd h.symm hk
        · exact h
      simp [eraseA, hk, ih h']

theorem keysA_eraseA_nodup {β : Type} (m : List (String × β)) (k : String)
    (hnd : (keysA m).Nodup) : (keysA (eraseA m k)).Nodup := by
  induction m with
  | nil => simp [eraseA]
  | cons p rest ih =>
    obtain ⟨k₀, v₀⟩ := p
    simp at hnd
    by_cases h : k₀ = k
    · simpa [eraseA, h] using hnd.2
    · simp [eraseA, h]
      refine ⟨fun hm => ?_, ih hnd.2⟩
      have := (keysA_eraseA_mem rest k k₀ hnd.2).mp hm
      exact hnd.1 this.1

theorem lookupA_eraseA_self {β : Type} (m : List (String × β)) (k : String)
    (hnd : (keysA m).Nodup) : lookupA (eraseA m k) k = none := by
  rw [lookupA_eq_none_iff]
  intro hm
  exact ((keysA_eraseA_mem m k k hnd).mp hm).2 rfl

theorem lookupA_insertA_other {β : Type} (m : List (String × β)) (k k' : String) (v : β)
    (h : k' ≠ k) : lookupA (insertA m k v) k' = lookupA m k' := by
  have h2 : ¬k = k' := fun hh => h hh.symm
  induction m with
  | nil => simp [insertA, lookupA, h2]
  | cons p rest ih =>
    obtain ⟨k₀, v₀⟩ := p
    by_cases hk : k₀ = k
    · subst hk
      simp [insertA, lookupA, h2]
    · by_cases hk' : k₀ = k'
      · subst hk'
        simp [insertA, lookupA, hk]
      · simp [insertA, lookupA, hk, hk', ih]

theorem lookupA_insertA_self {β : Type} (m : List (String × β)) (k : String) (v : β) :
    lookupA (insertA m k v) k = some v := by
  induction m with
  | nil => simp [insertA, lookupA]
  | cons p rest ih =>
    obtain ⟨k₀, v₀⟩ := p
    by_cases hk : k₀ = k <;> simp [insertA, lookupA, hk, ih]

/-! ### ExponentialBackoff lemmas -/

theorem nextDelays_attempts (target : String) (rnds : ℕ → ℚ) (b : ExponentialBackoff)
    (n : ℕ) : (nextDelays target rnds b n).attemptsMap target = b.attemptsMap target + n := by
  induction n with
  | zero => rfl
  | succ n ih => simp [nextDelays, nextDelay, ih]; ring

theorem nextDelays_params (target : String) (rnds : ℕ → ℚ) (b : ExponentialBackoff)
    (n : ℕ) :
    (nextDelays target rnds b n).baseDelay = b.baseDelay ∧
      (nextDelays target rnds b n).maxDelay = b.maxDelay ∧
      (nextDelays target rnds b n).factor = b.factor ∧
      (nextDelays target rnds b n).jitter = b.jitter := by
  induction n with
  | zero => exact ⟨rfl, rfl, rfl, rfl⟩
  | succ n ih => simpa [nextDelays, nextDelay] using ih

/-- Closed form of the delay of call `n + 1` when jitter is zero:
`base * factor^n` capped at `maxDelay`. -/
theorem nthDelay_closed_form (target : String) (rnds : ℕ → ℚ) (b : ExponentialBackoff)
    (hj : b.jitter = 0) (h0 : b.attemptsMap target = 0) (n : ℕ) :
    nthDelay target rnds b n =
      if b.maxDelay < b.baseDelay * b.factor ^ n then b.maxDelay
      else b.baseDelay * b.factor ^ n := by
  obtain ⟨hb, hm, hf, hjit⟩ := nextDelays_params target rnds b n
  have ha := nextDelays_attempts target rnds b n
  rw [h0] at ha
  simp [nthDelay, nextDelay, ha, hb, hm, hf, hjit, hj]

/-- C4: with base 100ms, factor 2, maxDelay 1s, jitter 0 (in ns), the
first four `NextDelay` calls for one host return 100ms, 200ms, 400ms,
800ms; every call from the fifth on returns exactly 1s; and each call
increments the per-host attempt counter. -/
theorem claim_C4_backoff_monotonicity (rnds : ℕ → ℚ) :
    nthDelay "h" rnds specBackoff 0 = 100000000 ∧
    nthDelay "h" rnds specBackoff 1 = 200000000 ∧
    nthDelay "h" rnds specBackoff 2 = 400000000 ∧
    nthDelay "h" rnds specBackoff 3 = 800000000 ∧
    (∀ k, 4 ≤ k → nthDelay "h" rnds specBackoff k = 1000000000) ∧
    (∀ n, (nextDelays "h" rnds specBackoff n).attemptsMap "h" = n) := by
  have hj : specBackoff.jitter = 0 := rfl
  have h0 : specBackoff.attemptsMap "h" = 0 := rfl
  refine ⟨?_, ?_, ?_, ?_, ?_, ?_⟩
  · rw [nthDelay_closed_form "h" rnds specBackoff hj h0 0]
    norm_num [specBackoff, NewExponentialBackoff]
  · rw [nthDelay_closed_form "h" rnds specBackoff hj h0 1]
    norm_num [specBackoff, NewExponentialBackoff]
  · rw [nthDelay_closed_form "h" rnds specBackoff hj h0 2]
    norm_num [specBackoff, NewExponentialBackoff]
  · rw [nthDelay_closed_form "h" rnds specBackoff hj h0 3]
    norm_num [specBackoff, NewExponentialBackoff]
  · intro k hk
    rw [nthDelay_closed_form "h" rnds specBackoff hj h0 k]
    have h16 : (16 : ℚ) ≤ 2 ^ k := by
      calc (16 : ℚ) = 2 ^ (4 : ℕ) := by norm_num
      _ ≤ 2 ^ k := pow_le_pow_right₀ (by norm_num) hk
    have hbig : (1000000000 : ℚ) < 100000000 * 2 ^ k := by
      have := mul_le_mul_of_nonneg_left h16 (by norm_num : (0 : ℚ) ≤ 100000000)
      linarith
    rw [if_pos (by simpa [specBackoff, NewExponentialBackoff] using hbig)]
    rfl
  · intro n
    have h := nextDelays_attempts "h" rnds specBackoff n
    rw [h0] at h
    simpa using h

/-- C4 witness: the saturation branch evaluated at the sixth call. -/
theorem claim_C4_backoff_monotonicity_witness :
    (4 ≤ 5) ∧ nthDelay "h" (fun _ => 1/2) specBackoff 5 = 1000000000 :=
  ⟨by decide, (claim_C4_backoff_monotonicity (fun _ => 1/2)).2.2.2.2.1 5 (by decide)⟩

/-- C2 counterexample: with base 100ms, factor 2, maxDelay 1s, jitter 0,
after three failing `NextDelay` calls (counter at 3, third call returned
400ms), `AdaptiveDelay(success = true)` returns 400ms — the same value
as the third call, not the 200ms that `NextDelay` computed at attempt
count 2, and not strictly smaller. -/
theorem claim_C2_counterexample :
    (nextDelays "h" (fun _ => 0) specBackoff 3).attemptsMap "h" = 3 ∧
    nthDelay "h" (fun _ => 0) specBackoff 2 = 400000000 ∧
    nthDelay "h" (fun _ => 0) specBackoff 1 = 200000000 ∧
    (AdaptiveDelay (nextDelays "h" (fun _ => 0) specBackoff 3) "h" 0 true).2 = 400000000 ∧
    ¬((AdaptiveDelay (nextDelays "h" (fun _ => 0) specBackoff 3) "h" 0 true).2 <
        nthDelay "h" (fun _ => 0) specBackoff 2) ∧
    (AdaptiveDelay (nextDelays "h" (fun _ => 0) specBackoff 3) "h" 0 true).2 ≠
        nthDelay "h" (fun _ => 0) specBackoff 1 := by
  have hc := claim_C4_backoff_monotonicity (fun _ => 0)
  have h3 : (nextDelays "h" (fun _ => 0) specBackoff 3).attemptsMap "h" = 3 := hc.2.2.2.2.2 3
  obtain ⟨hb, _, hf, _⟩ := nextDelays_params "h" (fun _ => 0) specBackoff 3
  have hA : (AdaptiveDelay (nextDelays "h" (fun _ => 0) specBackoff 3) "h" 0 true).2
      = 400000000 := by
    simp [AdaptiveDelay, h3, hb, hf]
    norm_num [specBackoff, NewExponentialBackoff]
  refine ⟨h3, hc.2.2.1, hc.2.1, hA, ?_, ?_⟩
  · rw [hA, hc.2.2.1]
    norm_num
  · rw [hA, hc.2.1]
    norm_num

/-- C2 (amended): after three failures the success path of
`AdaptiveDelay` reduces the attempt counter to 2 but returns
`base * factor^2` — the delay whose exponent equals the reduced counter,
which (uncapped, jitter 0) coincides with the attempt-3 `NextDelay`
value rather than being strictly smaller than it. -/
theorem claim_C2_adaptive_recovery (b : ExponentialBackoff) (target : String) (rnd : ℚ)
    (h3 : b.attemptsMap target = 3) :
    (AdaptiveDelay b target rnd true).1.attemptsMap target = 2 ∧
    (AdaptiveDelay b target rnd true).2 = b.baseDelay * b.factor ^ (2 : ℕ) := by
  constructor
  · simp [AdaptiveDelay, h3]
  · simp [AdaptiveDelay, h3]

/-- C2 witness: the amended statement evaluated on the concrete state
reached by three failing calls of the 100ms/2/1s/0 configuration. -/
theorem claim_C2_adaptive_recovery_witness :
    ((nextDelays "h" (fun _ => 0) specBackoff 3).attemptsMap "h" = 3) ∧
    (AdaptiveDelay (nextDelays "h" (fun _ => 0) specBackoff 3) "h" 0 true).1.attemptsMap "h" = 2 :=
  ⟨by decide,
    (claim_C2_adaptive_recovery (nextDelays "h" (fun _ => 0) specBackoff 3) "h" 0
      (by decide)).1⟩

/-- C10: on the success path, for a host whose attempt counter is
`a ≥ 1`, `AdaptiveDelay` returns exactly `base * factor^(a-1)` — no
jitter, no `maxDelay` cap — and stores counter `a - 1`; consequently,
whenever `factor > 1` and `base > 0` there is an attempt count whose
success-path delay exceeds `maxDelay`. -/
theorem claim_C10_adaptive_success_uncapped (b : ExponentialBackoff) (target : String)
    (rnd : ℚ) (a : ℕ) (ha : b.attemptsMap target = a) (h1 : 1 ≤ a) :
    (AdaptiveDelay b target rnd true).2 = b.baseDelay * b.factor ^ (a - 1) ∧
    (AdaptiveDelay b target rnd true).1.attemptsMap target = a - 1 ∧
    (1 < b.factor → 0 < b.baseDelay →
      ∃ n : ℕ, 1 ≤ n ∧ b.maxDelay < b.baseDelay * b.factor ^ (n - 1)) := by
  refine ⟨by simp [AdaptiveDelay, ha], by simp [AdaptiveDelay, ha], ?_⟩
  intro hf hb
  obtain ⟨n, hn⟩ := pow_unbounded_of_one_lt (b.maxDelay / b.baseDelay) hf
  refine ⟨n + 1, by omega, ?_⟩
  have := (div_lt_iff₀ hb).mp hn
  simpa [mul_comm] using this

/-- C10 witness: a state with counter 2, base 2, factor 3, maxDelay 5:
the success delay is `2 * 3^1 = 6 > maxDelay`, uncapped. -/
theorem claim_C10_adaptive_success_uncapped_witness :
    (recoveryState.attemptsMap "h" = 2) ∧
    (AdaptiveDelay recoveryState "h" 0 true).2 = 2 * 3 ^ (1 : ℕ) ∧
    (AdaptiveDelay recoveryState "h" 0 true).1.attemptsMap "h" = 1 :=
  ⟨by decide,
    (claim_C10_adaptive_success_uncapped recoveryState "h" 0 2 (by decide) (by decide)).1,
    (claim_C10_adaptive_success_uncapped recoveryState "h" 0 2 (by decide) (by decide)).2.1⟩

/-! ### LRU cache lemmas -/

/-- C5 counterexample: a bounded cache of capacity 0 holding 0 entries —
inserting one more distinct key evicts nothing (the access order is
empty) and leaves the cache holding 1 > 0 entries, so the claim's
universally quantified eviction/bound statement fails at capacity 0. -/
theorem claim_C5_counterexample :
    ((NewLRUCache Bool 0 10).Set "a" true 0).cache.length = 1 ∧
    (NewLRUCache Bool 0 10).capacity = 0 ∧
    (NewLRUCache Bool 0 10).cache.length = 0 := by
  refine ⟨?_, rfl, rfl⟩
  rfl

/-- C5 (amended): for every well-formed bounded LRU cache of capacity
`C ≥ 1` holding `C` entries, `Set` on a fresh key evicts exactly one
entry — the head of the access order, i.e. the least-recently-accessed
key (both `Set` on an existing key and a successful `Get` re-append a
key, so the head is least recent) — and the cache again holds exactly
`C` entries. -/
theorem claim_C5_lru_eviction {α : Type} (c : LRUCache α) (k : String) (v : α)
    (now : ℕ) (hwf : c.WF) (hcap : 1 ≤ c.capacity)
    (hfull : c.cache.length = c.capacity) (hnew : lookupA c.cache k = none) :
    ∃ lru rest, c.accessOrder = lru :: rest ∧
      (c.Set k v now).cache.length = c.capacity ∧
      (c.Set k v now).accessOrder = rest ++ [k] ∧
      lookupA (c.Set k v now).cache lru = none ∧
      ∀ k', k' ∈ keysA (c.Set k v now).cache ↔
        ((k' ∈ keysA c.cache ∧ k' ≠ lru) ∨ k' = k) := by
  obtain ⟨hnd, hperm⟩ := hwf
  have hlen : c.accessOrder.length = c.cache.length := by
    rw [hperm.length_eq]; simp [keysA]
  have hpos : 0 < c.accessOrder.length := by omega
  obtain ⟨lru, rest, hAO⟩ : ∃ lru rest, c.accessOrder = lru :: rest := by
    cases h : c.accessOrder with
    | nil => rw [h] at hpos; simp at hpos
    | cons a l => exact ⟨a, l, rfl⟩
  have hlru_mem : lru ∈ keysA c.cache := by
    have : lru ∈ c.accessOrder := by rw [hAO]; simp
    exact hperm.mem_iff.mp this
  have hknotmem : k ∉ keysA c.cache := (lookupA_eq_none_iff _ _).mp hnew
  have hlruk : lru ≠ k := fun h => hknotmem (h ▸ hlru_mem)
  have hSome : (lookupA c.cache k).isSome = false := by rw [hnew]; rfl
  have hSet : c.Set k v now =
      { c with
        cache := insertA (eraseA c.cache lru) k ⟨v, now + c.ttl⟩
        accessOrder := rest ++ [k] } := by
    simp [LRUCache.Set, hSome, hfull, LRUCache.evictLRU, hAO]
  have hkerase : k ∉ keysA (eraseA c.cache lru) := by
    intro hmem
    exact hknotmem ((keysA_eraseA_mem c.cache lru k hnd).mp hmem).1
  have hins : insertA (eraseA c.cache lru) k (⟨v, now + c.ttl⟩ : CacheEntry α) =
      eraseA c.cache lru ++ [(k, ⟨v, now + c.ttl⟩)] :=
    insertA_of_not_mem _ _ _ hkerase
  refine ⟨lru, rest, hAO, ?_, ?_, ?_, ?_⟩
  · rw [hSet]
    simp only [hins, List.length_append, List.length_cons, List.length_nil]
    have := keysA_eraseA_length c.cache lru hlru_mem
    omega
  · rw [hSet]
  · rw [hSet]
    simp only
    rw [lookupA_insertA_other _ _ _ _ hlruk]
    exact lookupA_eraseA_self _ _ hnd
  · intro k'
    rw [hSet]
    simp only [hins, keysA_append, List.mem_append, keysA_cons, keysA_nil,
      List.mem_cons, List.not_mem_nil, or_false]
    rw [keysA_eraseA_mem c.cache lru k' hnd]

/-- C5 witness: a capacity-1 cache holding one entry; inserting a second
distinct key evicts the first. -/
theorem claim_C5_lru_eviction_witness :
    ((NewLRUCache Bool 1 10).Set "a" true 0).WF ∧
    1 ≤ ((NewLRUCache Bool 1 10).Set "a" true 0).capacity ∧
    ((NewLRUCache Bool 1 10).Set "a" true 0).cache.length =
      ((NewLRUCache Bool 1 10).Set "a" true 0).capacity ∧
    lookupA ((NewLRUCache Bool 1 10).Set "a" true 0).cache "b" = none ∧
    (∃ lru rest, ((NewLRUCache Bool 1 10).Set "a" true 0).accessOrder = lru :: rest ∧
      (((NewLRUCache Bool 1 10).Set "a" true 0).Set "b" false 1).cache.length =
        ((NewLRUCache Bool 1 10).Set "a" true 0).capacity ∧
      (((NewLRUCache Bool 1 10).Set "a" true 0).Set "b" false 1).accessOrder =
        rest ++ ["b"] ∧
      lookupA (((NewLRUCache Bool 1 10).Set "a" true 0).Set "b" false 1).cache lru = none ∧
      ∀ k', k' ∈ keysA (((NewLRUCache Bool 1 10).Set "a" true 0).Set "b" false 1).cache ↔
        ((k' ∈ keysA ((NewLRUCache Bool 1 10).Set "a" true 0).cache ∧ k' ≠ lru) ∨
          k' = "b")) :=
  ⟨by decide, by decide, by decide, by decide,
    claim_C5_lru_eviction ((NewLRUCache Bool 1 10).Set "a" true 0) "b" false 1
      (by decide) (by decide) (by decide) (by decide)⟩

/-- C6: a `Get` whose `now` is strictly past the stored `ExpiresAt`
misses and deletes the entry, without any background sweep; and in
general `Get` never returns data from an entry whose TTL has elapsed. -/
theorem claim_C6_lazy_ttl_expiry {α : Type} (c : LRUCache α) (k : String) (now : ℕ)
    (e : CacheEntry α) (hnd : (keysA c.cache).Nodup)
    (he : lookupA c.cache k = some e) (hexp : e.ExpiresAt < now) :
    (c.Get k now).1 = none ∧
    lookupA (c.Get k now).2.cache k = none ∧
    ∀ (c' : LRUCache α) (k' : String) (now' : ℕ) (d : α),
      (c'.Get k' now').1 = some d →
      ∃ e', lookupA c'.cache k' = some e' ∧ e'.Data = d ∧ ¬e'.ExpiresAt < now' := by
  refine ⟨?_, ?_, ?_⟩
  · simp [LRUCache.Get, he, hexp]
  · simp only [LRUCache.Get, he, if_pos hexp]
    exact lookupA_eraseA_self _ _ hnd
  · intro c' k' now' d hd
    cases hl : lookupA c'.cache k' with
    | none => simp [LRUCache.Get, hl] at hd
    | some e' =>
      by_cases hx : e'.ExpiresAt < now'
      · simp [LRUCache.Get, hl, hx] at hd
      · simp [LRUCache.Get, hl, hx] at hd
        exact ⟨e', rfl, hd, hx⟩

/-- C6 witness: an entry written at time 0 with TTL 10 is a miss at
time 11 and is removed. -/
theorem claim_C6_lazy_ttl_expiry_witness :
    ((keysA ((NewLRUCache Bool 1 10).Set "a" true 0).cache).Nodup) ∧
    lookupA ((NewLRUCache Bool 1 10).Set "a" true 0).cache "a" =
      some ⟨true, 10⟩ ∧
    ((10 : ℕ) < 11) ∧
    (((NewLRUCache Bool 1 10).Set "a" true 0).Get "a" 11).1 = none ∧
    lookupA (((NewLRUCache Bool 1 10).Set "a" true 0).Get "a" 11).2.cache "a" = none :=
  ⟨by decide, by decide, by decide,
    (claim_C6_lazy_ttl_expiry ((NewLRUCache Bool 1 10).Set "a" true 0) "a" 11
      ⟨true, 10⟩ (by decide) (by decide) (by decide)).1,
    (claim_C6_lazy_ttl_expiry ((NewLRUCache Bool 1 10).Set "a" true 0) "a" 11
      ⟨true, 10⟩ (by decide) (by decide) (by decide)).2.1⟩

/-! ### WorkerPool lemmas -/

theorem poolReach_addMany (ts : List ℕ) (s : PoolState) (h : s.cancelled = false) :
    PoolReach s { s with pending := s.pending ++ ts, accepted := s.accepted ++ ts } := by
  induction ts generalizing s with
  | nil =>
    have he : ({ s with pending := s.pending ++ [], accepted := s.accepted ++ [] } :
        PoolState) = s := by simp
    rw [he]
    exact Relation.ReflTransGen.refl
  | cons t ts ih =>
    have h1 := PoolStep.addTask s t h
    have h2 := ih { s with pending := s.pending ++ [t], accepted := s.accepted ++ [t] }
      (by simpa using h)
    refine Relation.ReflTransGen.head h1 ?_
    simpa [List.append_assoc] using h2

theorem poolReach_exitAll (s : PoolState) (h : s.cancelled = true) :
    PoolReach s { s with workers := 0 } := by
  generalize hn : s.workers = n
  induction n generalizing s with
  | zero =>
    have he : ({ s with workers := 0 } : PoolState) = s := by
      cases s
      simp only at hn
      simp [hn]
    rw [he]
    exact Relation.ReflTransGen.refl
  | succ n ih =>
    have h1 := PoolStep.workerExit s h (by omega)
    have h2 := ih { s with workers := s.workers - 1 } (by simpa using h)
      (by show s.workers - 1 = n; omega)
    refine Relation.ReflTransGen.head h1 ?_
    simpa using h2

/-- A single pool step preserves the accounting relation between
executed, pending and accepted tasks. -/
theorem poolStep_conservation (a b : PoolState) (hstep : PoolStep a b)
    (h : (a.executed ++ a.pending).Perm a.accepted) :
    (b.executed ++ b.pending).Perm b.accepted := by
  cases hstep with
  | addTask t hc =>
    show (a.executed ++ (a.pending ++ [t])).Perm (a.accepted ++ [t])
    rw [← List.append_assoc]
    exact h.append_right [t]
  | runTask t rest hw hp =>
    show ((a.executed ++ [t]) ++ rest).Perm a.accepted
    have he : (a.executed ++ [t]) ++ rest = a.executed ++ (t :: rest) := by
      rw [List.append_assoc]; rfl
    rw [he, ← hp]
    exact h
  | stop => exact h
  | workerExit hc hw => exact h

/-- Soundness of the model's accounting: in every reachable state, the
executed tasks followed by the still-pending tasks are a permutation of
the accepted tasks — in particular no accepted task is ever executed
twice, confirming the at-most-once half of the pool invariant. -/
theorem poolReach_conservation (n : ℕ) (s : PoolState)
    (h : PoolReach (poolInit n) s) : (s.executed ++ s.pending).Perm s.accepted := by
  induction h with
  | refl => simp [poolInit]
  | tail hr step ih => exact poolStep_conservation _ _ step ih

/-- C1: the pool can lose accepted tasks.  There is an interleaving in
which 100 tasks are accepted by `AddTask`, `Stop` is called, all four
workers take the ready `<-ctx.Done()` branch of their select and
return, `Stop`'s `wg.Wait()` releases — and none of the 100 accepted
tasks was ever executed, so a shared counter incremented by each task
would read 0, not 100. -/
theorem claim_C1_worker_pool_drops_tasks :
    ∃ s : PoolState, PoolReach (poolInit 4) s ∧
      s.accepted.length = 100 ∧ s.cancelled = true ∧ s.workers = 0 ∧
      s.executed = [] ∧ s.pending.length = 100 := by
  refine ⟨⟨List.range 100, List.range 100, [], true, 0⟩, ?_, by simp, rfl, rfl, rfl, by simp⟩
  have h1 : PoolReach (poolInit 4) ⟨List.range 100, List.range 100, [], false, 4⟩ := by
    simpa [poolInit] using poolReach_addMany (List.range 100) (poolInit 4) rfl
  have h2 : PoolStep (⟨List.range 100, List.range 100, [], false, 4⟩ : PoolState)
      ⟨List.range 100, List.range 100, [], true, 4⟩ :=
    PoolStep.stop _
  have h3 := poolReach_exitAll (⟨List.range 100, List.range 100, [], true, 4⟩ : PoolState) rfl
  exact (h1.tail h2).trans h3

/-! ### Wordlist ingestion lemmas -/

/-- C3 counterexample: on the source `" w\n"` the eager path trims the
leading space and generates `w.ex`, while the streaming path keeps the
space and generates `" w.ex"` — the two paths do not produce identical
candidates for every source. -/
theorem claim_C3_counterexample :
    eagerCandidates ['e', 'x'] [' ', 'w', '\n'] ≠
      streamingCandidates ['e', 'x'] [' ', 'w', '\n'] := by
  decide

theorem streamWordsAux_eq (cs : List Char) (w : List Char) (h : '\r' ∉ cs) :
    streamWordsAux cs w =
      ((w ++ (splitLines cs).1) :: (splitLines cs).2).filter (fun l => !l.isEmpty) := by
  induction cs generalizing w with
  | nil =>
    by_cases hw : w.isEmpty <;>
      simp [streamWordsAux, splitLines, List.filter, hw]
  | cons c cs ih =>
    simp at h
    push_neg at h
    by_cases hc : c = '\n'
    · subst hc
      by_cases hw : w.isEmpty <;>
        simp [streamWordsAux, splitLines, List.filter, hw, ih [] h.2]
    · have hcr : ¬(c = '\n' ∨ c = '\r') := by
        rintro (h1 | h1)
        · exact hc h1
        · exact h.1 h1.symm
      have hcr2 : ¬c = '\r' := fun hh => h.1 hh.symm
      simp [streamWordsAux, splitLines, hc, hcr, hcr2, ih (w ++ [c]) h.2,
        List.append_assoc]

theorem splitLines_cons (c : Char) (cs : List Char) :
    splitLines (c :: cs) =
      if c = '\n' then ([], (splitLines cs).1 :: (splitLines cs).2)
      else (c :: (splitLines cs).1, (splitLines cs).2) := rfl

/-- Every character of every record lies in the source and is not a
newline. -/
theorem splitLines_chars (s : List Char) :
    (∀ c ∈ (splitLines s).1, c ∈ s ∧ c ≠ '\n') ∧
      (∀ l ∈ (splitLines s).2, ∀ c ∈ l, c ∈ s ∧ c ≠ '\n') := by
  induction s with
  | nil =>
    constructor
    · intro c hc
      exact absurd hc (List.not_mem_nil c)
    · intro l hl
      exact absurd hl (List.not_mem_nil l)
  | cons c cs ih =>
    by_cases hc : c = '\n'
    · subst hc
      rw [splitLines_cons, if_pos rfl]
      constructor
      · simp
      · intro l hl c' hc'
        simp only [List.mem_cons] at hl
        rcases hl with rfl | hl
        · have := ih.1 c' hc'
          exact ⟨List.mem_cons_of_mem _ this.1, this.2⟩
        · have := ih.2 l hl c' hc'
          exact ⟨List.mem_cons_of_mem _ this.1, this.2⟩
    · rw [splitLines_cons, if_neg hc]
      constructor
      · intro c' hc'
        simp only [List.mem_cons] at hc'
        rcases hc' with rfl | hc'
        · exact ⟨List.mem_cons_self _ _, hc⟩
        · have := ih.1 c' hc'
          exact ⟨List.mem_cons_of_mem _ this.1, this.2⟩
      · intro l hl c' hc'
        have := ih.2 l hl c' hc'
        exact ⟨List.mem_cons_of_mem _ this.1, this.2⟩

theorem trimChars_eq_self (l : List Char) (h : ∀ c ∈ l, isSpaceChar c = false) :
    trimChars l = l := by
  have hdw : ∀ (m : List Char), (∀ c ∈ m, isSpaceChar c = false) →
      m.dropWhile isSpaceChar = m := by
    intro m hm
    cases m with
    | nil => rfl
    | cons c cs => simp [List.dropWhile, hm c (List.mem_cons_self _ _)]
  unfold trimChars
  rw [hdw l h, hdw l.reverse (by intro c hc; exact h c (List.mem_reverse.mp hc)),
    List.reverse_reverse]

/-- C3 (amended): the eager and streaming ingestion paths produce
identical candidates for every source whose only whitespace is the
`'\n'` record separator.  In general they differ — the streaming parser
neither trims spaces and tabs nor treats a lone `'\r'` the way
`TrimSpace` does (see the counterexample) — and the size threshold in
`ExecuteActiveScan` only selects the path. -/
theorem claim_C3_eager_streaming_agree (domain s : List Char)
    (h : ∀ c ∈ s, isSpaceChar c = true → c = '\n') :
    eagerCandidates domain s = streamingCandidates domain s := by
  have hr : '\r' ∉ s := by
    intro hmem
    have := h '\r' hmem (by decide)
    simp at this
  have hl : LoadWordlist s = (linesOf s).filter (fun w => !w.isEmpty) := by
    unfold LoadWordlist
    have : (linesOf s).map trimChars = (linesOf s).map id := by
      apply List.map_congr_left
      intro l hl
      have hchars : ∀ c ∈ l, isSpaceChar c = false := by
        intro c hc
        have hcl : c ∈ s ∧ c ≠ '\n' := by
          rcases List.mem_cons.mp hl with rfl | hmem
          · exact (splitLines_chars s).1 c hc
          · exact (splitLines_chars s).2 l hmem c hc
        cases hsp : isSpaceChar c with
        | false => rfl
        | true => exact absurd (h c hcl.1 hsp) hcl.2
      simpa using trimChars_eq_self l hchars
    rw [this, List.map_id]
  have hs : streamWords s = (linesOf s).filter (fun w => !w.isEmpty) := by
    unfold streamWords
    rw [streamWordsAux_eq s [] hr]
    rfl
  unfold eagerCandidates streamingCandidates
  rw [hl, hs]

/-- C3 witness: on the clean source `"www\napi"` both paths generate
exactly `[www.ex, api.ex]`. -/
theorem claim_C3_eager_streaming_agree_witness :
    (∀ c ∈ (['w', 'w', 'w', '\n', 'a', 'p', 'i'] : List Char),
      isSpaceChar c = true → c = '\n') ∧
    eagerCandidates ['e', 'x'] ['w', 'w', 'w', '\n', 'a', 'p', 'i'] =
      streamingCandidates ['e', 'x'] ['w', 'w', 'w', '\n', 'a', 'p', 'i'] :=
  ⟨by decide,
    claim_C3_eager_streaming_agree ['e', 'x'] ['w', 'w', 'w', '\n', 'a', 'p', 'i']
      (by decide)⟩

/-! ### Scan-level lemmas -/

theorem Worker_nil (env : WorkerEnv) (cache : List (String × DNSResult)) :
    Worker env cache [] = ([], cache) := rfl

theorem Worker_cons (env : WorkerEnv) (cache : List (String × DNSResult))
    (s : String) (rest : List String) :
    Worker env cache (s :: rest) =
      ((workerStep env cache s).2.toList ++
          (Worker env (workerStep env cache s).1 rest).1,
        (Worker env (workerStep env cache s).1 rest).2) := rfl

theorem levelCands_length (ts wl : List String) :
    (levelCands ts wl).length = ts.length * wl.length := by
  induction ts with
  | nil => simp [levelCands]
  | cons t ts ih =>
    simp only [levelCands, List.map_cons, List.flatten_cons, List.length_append,
      List.length_map, List.length_cons] at ih ⊢
    rw [ih, Nat.succ_mul]
    omega

theorem workerStep_subdomain (env : WorkerEnv) (cache : List (String × DNSResult))
    (s : String) (r : SubdomainResult)
    (h : (workerStep env cache s).2 = some r) : r.Subdomain = s := by
  cases hl : lookupA cache s with
  | some dr =>
    cases hf : dr.Found with
    | true =>
      simp [workerStep, hl, hf] at h
      rw [← h]
    | false => simp [workerStep, hl, hf] at h
  | none =>
    cases hres : resolveSub env s with
    | some a =>
      simp [workerStep, hl, hres] at h
      rw [← h]
    | none => simp [workerStep, hl, hres] at h

theorem workerStep_preserves (env : WorkerEnv) (cache : List (String × DNSResult))
    (s sub : String) (h : sub ≠ s) :
    lookupA (workerStep env cache s).1 sub = lookupA cache sub := by
  cases hl : lookupA cache s with
  | some dr => cases hf : dr.Found <;> simp [workerStep, hl, hf]
  | none =>
    cases hres : resolveSub env s with
    | some a =>
      simp [workerStep, hl, hres, lookupA_insertA_other cache s sub _ h]
    | none =>
      simp [workerStep, hl, hres, lookupA_insertA_other cache s sub _ h]

theorem workerStep_no_emit (env : WorkerEnv) (cache : List (String × DNSResult))
    (s : String) (hres : resolveSub env s = none)
    (hc : lookupA cache s = none ∨ lookupA cache s = some ⟨false, []⟩) :
    (workerStep env cache s).2 = none ∧
      (lookupA (workerStep env cache s).1 s = none ∨
        lookupA (workerStep env cache s).1 s = some ⟨false, []⟩) := by
  rcases hc with hc | hc
  · exact ⟨by simp [workerStep, hc, hres],
      Or.inr (by simp [workerStep, hc, hres, lookupA_insertA_self])⟩
  · exact ⟨by simp [workerStep, hc], Or.inr (by simp [workerStep, hc, hc])⟩

/-- A candidate whose resolution fails and which has no stale positive
cache entry is never emitted: the worker stores a negative entry and
produces no result for it, at any position in the queue. -/
theorem Worker_no_emit (env : WorkerEnv) (subs : List String)
    (cache : List (String × DNSResult)) (sub : String)
    (hres : resolveSub env sub = none)
    (hc : lookupA cache sub = none ∨ lookupA cache sub = some ⟨false, []⟩) :
    ∀ r ∈ (Worker env cache subs).1, r.Subdomain ≠ sub := by
  induction subs generalizing cache with
  | nil => intro r hr; simp [Worker] at hr
  | cons s rest ih =>
    intro r hr
    rw [Worker_cons] at hr
    simp only [List.mem_append] at hr
    rcases hr with hr | hr
    · cases hstep : (workerStep env cache s).2 with
      | none => rw [hstep] at hr; simp at hr
      | some r0 =>
        rw [hstep] at hr
        simp at hr
        have hsd := workerStep_subdomain env cache s r0 hstep
        by_cases hs : s = sub
        · subst hs
          have hno := (workerStep_no_emit env cache s hres hc).1
          rw [hno] at hstep
          cases hstep
        · rw [hr, hsd]
          exact hs
    · by_cases hs : s = sub
      · subst hs
        have h2 := workerStep_no_emit env cache s hres hc
        exact ih (workerStep env cache s).1 h2.2 r hr
      · have hpres := workerStep_preserves env cache s sub (fun hh => hs hh.symm)
        exact ih (workerStep env cache s).1 (by rw [hpres]; exact hc) r hr

/-- C8: for domain `example.com`, wordlist `["www", "api"]`, no
recursion, takeover disabled, and a resolver succeeding only for
`www.example.com`, the scan emits exactly one result —
`SubdomainResult{Subdomain: "www.example.com"}` — and leaves a negative
cache entry for `api.example.com`; in general a candidate whose
resolution fails (with no stale positive cache entry) is never
emitted. -/
theorem claim_C8_end_to_end_scenario :
    (Worker c8env [] (levelCands ["example.com"] ["www", "api"])).1 =
      [⟨"www.example.com", [], ""⟩] ∧
    lookupA (Worker c8env [] (levelCands ["example.com"] ["www", "api"])).2
      "api.example.com" = some ⟨false, []⟩ ∧
    ∀ (env : WorkerEnv) (subs : List String) (cache : List (String × DNSResult))
      (sub : String), resolveSub env sub = none →
      (lookupA cache sub = none ∨ lookupA cache sub = some ⟨false, []⟩) →
      ∀ r ∈ (Worker env cache subs).1, r.Subdomain ≠ sub := by
  refine ⟨by decide, by decide, ?_⟩
  intro env subs cache sub h1 h2
  exact Worker_no_emit env subs cache sub h1 h2

/-- C8 witness: the general no-emission part applied to the concrete
scenario's failing candidate `api.example.com`. -/
theorem claim_C8_end_to_end_scenario_witness :
    resolveSub c8env "api.example.com" = none ∧
    ∀ r ∈ (Worker c8env [] (levelCands ["example.com"] ["www", "api"])).1,
      r.Subdomain ≠ "api.example.com" :=
  ⟨by decide,
    claim_C8_end_to_end_scenario.2.2 c8env (levelCands ["example.com"] ["www", "api"])
      [] "api.example.com" (by decide) (Or.inl rfl)⟩

theorem scanLevels_succ (env : WorkerEnv) (wl : List String) (recursive : Bool)
    (depth : Int) (fuel : ℕ) (toScan : List String) (level : Int)
    (cache : List (String × DNSResult)) :
    scanLevels env wl recursive depth (fuel + 1) toScan level cache =
      if toScan.isEmpty ∨ ¬(depth = -1 ∨ level ≤ depth) then []
      else
        levelCands toScan wl ::
          scanLevels env wl recursive depth fuel
            (if recursive ∧ (depth = -1 ∨ level < depth) then
              (Worker env cache (levelCands toScan wl)).1.map (fun r => r.Subdomain)
            else []) (level + 1) (Worker env cache (levelCands toScan wl)).2 := rfl

theorem scanLevels_empty (env : WorkerEnv) (wl : List String) (recursive : Bool)
    (depth : Int) (fuel : ℕ) (level : Int) (cache : List (String × DNSResult)) :
    scanLevels env wl recursive depth fuel [] level cache = [] := by
  cases fuel with
  | zero => rfl
  | succ m =>
    rw [scanLevels_succ]
    rw [if_pos]
    left
    rfl

/-- C7: with `depth = 2` and exactly two positive results at level 1,
level 2 dispatches exactly `2 * W` candidates (the two discoveries ×
the wordlist) and no level 3 is dispatched; `depth = 1` dispatches only
the initial level whatever the recursion flag; and `depth = -1` never
cuts recursion off — any non-empty frontier is expanded regardless of
the level number. -/
theorem claim_C7_recursion_fanout (env : WorkerEnv) (wordlist : List String)
    (domain : String) (cache0 : List (String × DNSResult)) (n : ℕ)
    (h2 : (Worker env cache0 (levelCands [domain] wordlist)).1.length = 2) :
    (∃ c2, scanLevels env wordlist true 2 (n + 2) [domain] 1 cache0 =
        [levelCands [domain] wordlist, c2] ∧ c2.length = 2 * wordlist.length) ∧
    (∀ (m : ℕ) (cache : List (String × DNSResult)) (rec2 : Bool),
      scanLevels env wordlist rec2 1 (m + 2) [domain] 1 cache =
        [levelCands [domain] wordlist]) ∧
    (∀ (m : ℕ) (toScan : List String) (level : Int)
        (cache : List (String × DNSResult)), toScan ≠ [] →
      scanLevels env wordlist true (-1) (m + 1) toScan level cache =
        levelCands toScan wordlist ::
          scanLevels env wordlist true (-1) m
            ((Worker env cache (levelCands toScan wordlist)).1.map
              (fun r => r.Subdomain)) (level + 1)
            (Worker env cache (levelCands toScan wordlist)).2) := by
  refine ⟨?_, ?_, ?_⟩
  · rw [scanLevels_succ, if_neg (by norm_num),
      if_pos (⟨rfl, Or.inr (by norm_num)⟩ :
        (true : Bool) = true ∧ ((2 : Int) = -1 ∨ (1 : Int) < 2))]
    have hlen : ((Worker env cache0 (levelCands [domain] wordlist)).1.map
        (fun r => r.Subdomain)).length = 2 := by
      rw [List.length_map, h2]
    obtain ⟨a, b, hab⟩ := List.length_eq_two.mp hlen
    rw [scanLevels_succ, if_neg (by rw [hab]; norm_num),
      if_neg (by rintro ⟨-, h | h⟩ <;> norm_num at h), scanLevels_empty]
    exact ⟨_, rfl, by rw [levelCands_length, hlen]⟩
  · intro m cache rec2
    rw [scanLevels_succ, if_neg (by norm_num),
      if_neg (by rintro ⟨-, h | h⟩ <;> norm_num at h), scanLevels_empty]
  · intro m toScan level cache htS
    rw [scanLevels_succ, if_neg ?_,
      if_pos (⟨rfl, Or.inl rfl⟩ :
        (true : Bool) = true ∧ ((-1 : Int) = -1 ∨ level < -1))]
    rintro (h | h)
    · exact htS (List.isEmpty_iff.mp h)
    · exact h (Or.inl rfl)

/-- The fan-out witness environment: two words, both resolving. -/
def c7env : WorkerEnv :=
  ⟨fun _ _ => none,
    fun sub => if sub = "a.ex" ∨ sub = "b.ex" then some [] else none,
    [], false⟩

/-- C7 witness: domain `ex`, wordlist of size two with exactly two
level-1 positives — level 2 dispatches `2 * 2` candidates. -/
theorem claim_C7_recursion_fanout_witness :
    ((Worker c7env [] (levelCands ["ex"] ["a", "b"])).1.length = 2) ∧
    ∃ c2, scanLevels c7env ["a", "b"] true 2 2 ["ex"] 1 [] =
      [levelCands ["ex"] ["a", "b"], c2] ∧
      c2.length = 2 * (["a", "b"] : List String).length :=
  ⟨by decide, (claim_C7_recursion_fanout c7env ["a", "b"] "ex" [] 0 (by decide)).1⟩

/-! ### StreamingActiveScan error-path lemmas -/

/-- C9 counterexample: when the wordlist source fails, the claim says a
non-nil error is returned synchronously and the scan aborts before any
workers start — but `StreamingActiveScan` returns `nil` (the goroutine
only logs the failure) and `workerPool.Start()` has already run. -/
theorem claim_C9_counterexample :
    (StreamingActiveScan ['e', 'x'] (Except.error "wordlist unreachable")).returnedError =
      none ∧
    (StreamingActiveScan ['e', 'x']
        (Except.error "wordlist unreachable")).workersStarted = true :=
  ⟨rfl, rfl⟩

/-- C9 (amended): a failed wordlist load aborts candidate production —
the producer goroutine logs the error and emits nothing, so the level
scans no candidates — but the error is absorbed, not returned
(`StreamingActiveScan` returns `nil`), and the worker pool was already
started before the load was attempted. -/
theorem claim_C9_wordlist_error_absorbed (domain : List Char) (e : String) :
    StreamingActiveScan domain (Except.error e) =
      ⟨none, true, []⟩ := rfl

end Subcollector
